import Mathlib

/-!
Shallow embedding of RegGuard's sanctions-screening engine
(`src/regguard/tools/ofac.py`) in Lean 4, with proofs of the
specification claims about dataset caching, matching, ranking and
formatting.

Conventions of the embedding:
* Python strings become `String`; `str.lower` / `str.strip` /
  `str.split()` / slicing become the character-list based `pyLower` /
  `pyStrip` / `pyWords` / `pyTakeStr` below.
* rapidfuzz similarity scores (numbers in `[0,100]`) are modelled as
  rationals; the two library scorers `fuzz.token_sort_ratio` and
  `fuzz.ratio` are external library code, so they are kept abstract as
  function parameters `tsr` and `rto` of the matching pipeline.
* xmltodict's "a repeated element decodes as a single dict or a list"
  is modelled by `OneOrMany`; an absent key (the `.get(k, [])` default
  in the source) is the `missing` constructor.
* the module-level mutable cache (`_ofac_data`, `_cache_time`) becomes an
  explicit `CacheState` threaded through `downloadOfac`; the network
  fetch plus XML parse of `download_ofac_sdn_data`'s `try` body is an
  `Except String OfacData` argument (`.error` = any of the transport,
  content-type, size or parse checks raising).
* `datetime.now()` timestamps are integer seconds; the TTL comparison
  `span.total_seconds() < 86400` is integer subtraction.
* a successfully parsed dataset is a non-empty Python dict, hence truthy,
  and a `datetime` is always truthy: so the source's `if _ofac_data and
  _cache_time` truthiness test is `Option.isSome` on both fields.
* Python's numeric rendering in f-strings is abstracted by `showScore`
  (no claim inspects the rendered score text).
-/

namespace RegGuard

/-- Python's `str.lower()`, modelled as character-wise lowercasing (the
character-list analogue of `String.toLower`, kept kernel-reducible). -/
def pyLower (s : String) : String :=
  String.mk (s.data.map Char.toLower)

/-- Python's `str.strip()`: drop leading and trailing whitespace. -/
def pyStrip (s : String) : String :=
  String.mk
    (((s.data.dropWhile Char.isWhitespace).reverse.dropWhile
        Char.isWhitespace).reverse)

/-- Python's `str.split()` with no separator: the maximal non-empty runs
of non-whitespace characters. -/
def wordsAux (acc : List Char) : List Char → List String
  | [] => if acc.isEmpty then [] else [String.mk acc.reverse]
  | c :: cs =>
      if c.isWhitespace then
        if acc.isEmpty then wordsAux [] cs
        else String.mk acc.reverse :: wordsAux [] cs
      else wordsAux (c :: acc) cs

def pyWords (s : String) : List String :=
  wordsAux [] s.data

/-- Python's `s[:n]` character slice. -/
def pyTakeStr (s : String) (n : ℕ) : String :=
  String.mk (s.data.take n)

/-- Prefix test on character lists: `isPrefixB a b` is true iff `a` is a
prefix of `b` (helper for Python's `needle in hay`). -/
def isPrefixB : List Char → List Char → Bool
  | [], _ => true
  | _ :: _, [] => false
  | a :: as, b :: bs => a == b && isPrefixB as bs

/-- Python's substring test `needle in hay`, on character lists. -/
def substrB : List Char → List Char → Bool
  | n, [] => List.isEmpty n
  | n, c :: t => isPrefixB n (c :: t) || substrB n t

/-- Decoded shape of a repeated XML element under xmltodict: the key may be
absent (the `.get(key, [])` default), hold a single dict, or hold a list.
`toList` is the source's `if isinstance(x, dict): x = [x]` normalization. -/
inductive OneOrMany (α : Type) where
  | missing : OneOrMany α
  | single (a : α) : OneOrMany α
  | several (l : List α) : OneOrMany α
deriving DecidableEq

def OneOrMany.toList {α : Type} : OneOrMany α → List α
  | .missing => []
  | .single a => [a]
  | .several l => l

/-- An `aka` element: `{firstName, lastName}` with `''` defaults. -/
structure Aka where
  firstName : String := ""
  lastName : String := ""
deriving DecidableEq

/-- An `address` element; `''` models both an absent and an empty field
(the source's `addr.get(field, '')` followed by a truthiness test treats
them identically). -/
structure Address where
  address1 : String := ""
  address2 : String := ""
  address3 : String := ""
  city : String := ""
  stateOrProvince : String := ""
  postalCode : String := ""
  country : String := ""
deriving DecidableEq

/-- The value under `programList['program']`: xmltodict yields a plain
string for one `<program>` element and a list for several. -/
inductive ProgramVal where
  | scalar (s : String) : ProgramVal
  | multi (ls : List String) : ProgramVal
deriving DecidableEq

/-- The `programList` field of an entry: absent (`entry.get` default `{}`),
present but not a dict (the `isinstance(program_data, dict)` guard), or a
dict whose `program` key may be absent. -/
inductive ProgramListField where
  | missing : ProgramListField
  | nonDict : ProgramListField
  | asDict (program : Option ProgramVal) : ProgramListField
deriving DecidableEq

/-- One `sdnEntry` record, with the fields `check_ofac` reads. -/
structure SdnEntry where
  uid : Option String := Option.none
  sdnType : Option String := Option.none
  firstName : String := ""
  lastName : String := ""
  akaList : OneOrMany Aka := .missing
  programList : ProgramListField := .missing
  addressList : OneOrMany Address := .missing
  remarks : String := ""
deriving DecidableEq

/-- The parsed document: `sdnList.sdnEntry` (with the not-a-list wrap)
and `sdnList.publshInformation.Publish_Date`. -/
structure OfacData where
  entries : OneOrMany SdnEntry := .missing
  pubDate : Option String := Option.none
deriving DecidableEq

/-- Loop body of `extract_addresses` (lines 107-117 of ofac.py): walk the
seven fields in fixed order appending truthy values, join with `", "`, and
append the joined string only when some part was present. -/
def addrStep (acc : List String) (addr : Address) : List String :=
  let parts :=
    [addr.address1, addr.address2, addr.address3, addr.city,
     addr.stateOrProvince, addr.postalCode, addr.country].foldl
      (fun ps v => if v ≠ "" then ps ++ [v] else ps) []
  if parts ≠ [] then acc ++ [String.intercalate ", " parts] else acc

/-- Source `extract_addresses`, lines 91-119 of ofac.py. -/
def extract_addresses (e : SdnEntry) : List String :=
  (e.addressList.toList).foldl addrStep []

/-- Line 162: `full_name = f"{first_name} {last_name}".strip()`. -/
def fullNameOf (e : SdnEntry) : String :=
  pyStrip (e.firstName ++ " " ++ e.lastName)

/-- Line 173: `aka_name` from the aka first/last fields, stripped. -/
def akaNameOf (a : Aka) : String :=
  pyStrip (a.firstName ++ " " ++ a.lastName)

/-- The `all_names` list of an entry (lines 164-175): the primary name followed by
the non-empty aka names in encounter order. -/
def allNames (e : SdnEntry) : List String :=
  fullNameOf e ::
    (e.akaList.toList.foldl
      (fun acc aka =>
        let an := akaNameOf aka
        if an ≠ "" then acc ++ [an] else acc)
      [])

/-- Per-name fuzzy score (lines 190-199): the maximum of
`fuzz.token_sort_ratio(search_lower, name.lower())` and the best
`fuzz.ratio(search_lower, word)` over the whitespace-split words of the
lowered name (`0` when there are no words). `tsr` and `rto` stand for the
two rapidfuzz scorers. -/
def nameScore (tsr rto : String → String → ℚ) (ql : String) (n : String) : ℚ :=
  let fullScore := tsr ql (pyLower n)
  let ws := (pyWords (pyLower n)).filter (fun w => w ≠ "")
  let wordScores := ws.map (fun w => rto ql w)
  let best :=
    match wordScores with
    | [] => 0
    | s :: ss => ss.foldl max s
  max fullScore best

/-- The fuzzy matching loop (lines 187-204) over the accumulator
`(is_match, match_score, matched_name)`: a name replaces the record only
when its score is `≥ threshold` and strictly greater than the recorded
score. -/
def fuzzyScan (th : ℤ) (sc : String → ℚ) :
    List String → Bool × ℚ × String → Bool × ℚ × String
  | [], acc => acc
  | n :: ns, (m, s, mn) =>
      let score := sc n
      if (th : ℚ) ≤ score ∧ s < score then fuzzyScan th sc ns (true, score, n)
      else fuzzyScan th sc ns (m, s, mn)

/-- The exact matching loop (lines 205-212): first name containing the
lowered query as a substring wins with score 100, and the scan `break`s. -/
def exactScan (ql : String) :
    List String → Bool × ℚ × String → Bool × ℚ × String
  | [], acc => acc
  | n :: ns, (m, s, mn) =>
      if substrB ql.data (pyLower n).data then (true, 100, n)
      else exactScan ql ns (m, s, mn)

/-- Program extraction (lines 215-217): `entry.get('programList', {})`
then `.get('program', 'Unknown')` when the value is a dict, else
`'Unknown'`.  Note the extracted value is passed through unchanged — a
scalar is not wrapped into a one-element list. -/
def extractProgram : ProgramListField → ProgramVal
  | .asDict (some v) => v
  | .asDict Option.none => .scalar "Unknown"
  | .missing => .scalar "Unknown"
  | .nonDict => .scalar "Unknown"

/-- One match record as appended at lines 225-235. -/
structure Candidate where
  name : String
  matched_name : Option String
  match_score : ℚ
  aliases : List String
  sdnType : String
  program : ProgramVal
  addresses : List String
  remarks : String
  uid : String
deriving DecidableEq

/-- The name the scan recorded for a candidate: the stored
`matched_name` when the match was not the primary name, else the primary
name itself (undoing the `if matched_name != full_name else None` at
line 227). -/
def recordedName (c : Candidate) : String :=
  c.matched_name.getD c.name

/-- The match record appended at lines 225-235, built from the scan
result `r = (is_match, match_score, matched_name)`. -/
def mkCandidate (e : SdnEntry) (r : Bool × ℚ × String) : Candidate :=
  { name := fullNameOf e
  , matched_name :=
      if r.2.2 ≠ fullNameOf e then some r.2.2 else Option.none
  , match_score := r.2.1
  , aliases := (((allNames e).drop 1).filter (fun n => n ≠ "")).take 3
  , sdnType := e.sdnType.getD "Unknown"
  , program := extractProgram e.programList
  , addresses := (extract_addresses e).take 2
  , remarks := e.remarks
  , uid := e.uid.getD "Unknown" }

/-- Per-entry matching (lines 158-235): run the fuzzy or exact scan over
`all_names` from `(False, 0, full_name)` and, on a match, build the
candidate record. -/
def entryCandidate (tsr rto : String → String → ℚ) (fuzzy : Bool) (th : ℤ)
    (ql : String) (e : SdnEntry) : Option Candidate :=
  let names := allNames e
  let full := fullNameOf e
  let r :=
    if fuzzy then fuzzyScan th (nameScore tsr rto ql) names (false, 0, full)
    else exactScan ql names (false, 0, full)
  if r.1 then some (mkCandidate e r) else Option.none

/-- The unsorted `matches` list: one optional candidate per entry, in
entry order. -/
def searchMatches (tsr rto : String → String → ℚ) (fuzzy : Bool) (th : ℤ)
    (ql : String) (es : List SdnEntry) : List Candidate :=
  es.filterMap (entryCandidate tsr rto fuzzy th ql)

/-- Stable insertion for the descending-by-score sort: a candidate passes
over strictly greater scores only, so equal scores keep encounter order —
the behaviour of Python's stable `list.sort(key=score, reverse=True)`
at line 238. -/
def insertByScore (c : Candidate) : List Candidate → List Candidate
  | [] => [c]
  | d :: ds =>
      if d.match_score ≤ c.match_score then c :: d :: ds
      else d :: insertByScore c ds

/-- Stable sort, descending by `match_score` (line 238). -/
def sortByScoreDesc : List Candidate → List Candidate
  | [] => []
  | c :: cs => insertByScore c (sortByScoreDesc cs)

/-- The full search: scan all entries, then sort. -/
def searchSorted (tsr rto : String → String → ℚ) (fuzzy : Bool) (th : ℤ)
    (ql : String) (es : List SdnEntry) : List Candidate :=
  sortByScoreDesc (searchMatches tsr rto fuzzy th ql es)

/-- Rendering of the `program` value by the f-string at line 251: a plain
string renders as itself, a list by Python's list display. -/
def pyListShow (ls : List String) : String :=
  "[" ++ String.intercalate ", " (ls.map (fun s => "'" ++ s ++ "'")) ++ "]"

def showProgram : ProgramVal → String
  | .scalar s => s
  | .multi ls => pyListShow ls

/-- Abstraction of Python's numeric rendering of a score in an f-string. -/
def showScore (q : ℚ) : String :=
  toString q.num ++ (if q.den = 1 then "" else "/" ++ toString q.den)

/-- One formatted match block (lines 243-275). -/
def renderCandidate (fuzzy : Bool) (i : ℕ) (m : Candidate) : String :=
  let r0 := "MATCH #" ++ toString i ++ ": " ++ m.name
  let r1 := r0 ++ (if fuzzy ∧ m.match_score < 100
                   then " (" ++ showScore m.match_score ++ "% match)" else "")
  let r2 := r1 ++ "\n  Type: " ++ m.sdnType
  let r3 := r2 ++ "\n  Program: " ++ showProgram m.program
  let r4 := r3 ++ (match m.matched_name with
                   | some mn => "\n  Matched: " ++ mn
                   | Option.none => "")
  let r5 := r4 ++ (if m.aliases ≠ []
                   then "\n  AKAs: " ++ String.intercalate ", " m.aliases else "")
  let r6 := r5 ++ (if m.addresses ≠ []
                   then "\n  Addresses:" ++
                     String.join (m.addresses.map (fun a => "\n    • " ++ a))
                   else "")
  let r7 := r6 ++ (if m.remarks ≠ ""
                   then "\n  Remarks: " ++
                     (if 200 < m.remarks.length
                      then pyTakeStr m.remarks 200 ++ "..." else m.remarks)
                   else "")
  r7 ++ "\n  UID: " ++ m.uid

/-- Numbering loop `enumerate(matches[:5], 1)` (truncation applied by the caller). -/
def renderListFrom (fuzzy : Bool) (i : ℕ) : List Candidate → List String
  | [] => []
  | c :: cs => renderCandidate fuzzy i c :: renderListFrom fuzzy (i + 1) cs

/-- The hard-failure text of the `except` block (lines 293-302). -/
def failureMsg (e : String) : String :=
  "❌ OFAC CHECK FAILED\nUnable to check sanctions list: " ++ e ++
  "\n\nThis could be due to:\n  • Network connectivity issues\n  • OFAC server temporarily unavailable\n  • Data format changes\n\nPlease try again later."

/-- The invalid-input text (line 137). -/
def invalidInputMsg : String :=
  "❌ Error: Please provide a name to search"

/-- The final report (lines 240-291): the match report with its header, or
the no-match report. -/
def renderAll (fuzzy : Bool) (name pub : String) (ms : List Candidate) : String :=
  if ms ≠ [] then
    "⚠️ OFAC SANCTIONS MATCH - " ++ toString ms.length ++ " result(s) (" ++
      (if fuzzy then "Fuzzy" else "Exact") ++ " search)\n" ++
      "📅 List Published: " ++ pub ++ "\n" ++
      "🔍 Search: '" ++ name ++ "'\n" ++
      String.mk (List.replicate 60 '=') ++ "\n\n" ++
      String.intercalate "\n\n" (renderListFrom fuzzy 1 (ms.take 5))
  else
    "✅ NO SANCTIONS MATCH\n📅 List Published: " ++ pub ++
      "\n🔍 Search: '" ++ name ++ "' (" ++
      (if fuzzy then "fuzzy" else "exact") ++
      " search)\nNo matches found on OFAC SDN list."

/-- Source `check_ofac` (lines 122-302). `dataRes` is the outcome of the awaited
`download_ofac_sdn_data()` call: `.error` carries the message of the
exception the broad `except` would catch. -/
def checkOfac (tsr rto : String → String → ℚ) (name : String) (fuzzy : Bool)
    (th : ℤ) (dataRes : Except String OfacData) : String :=
  if pyStrip name = "" then invalidInputMsg
  else
    let q := pyStrip name
    match dataRes with
    | .error e => failureMsg e
    | .ok data =>
        let pub := data.pubDate.getD "Unknown"
        let ms := searchSorted tsr rto fuzzy th (pyLower q) data.entries.toList
        renderAll fuzzy q pub ms

/-- The module-level cache `(_ofac_data, _cache_time)`. -/
structure CacheState where
  data : Option OfacData
  time : Option ℤ
deriving DecidableEq

/-- The body of `download_ofac_sdn_data` after the freshness check
(lines 37-88): on a successful fetch+parse, store both cache fields and
return the data; on failure, serve the stale cache when one exists, else
raise. The `Bool` reports whether a network fetch was attempted. -/
def attemptFetch (st : CacheState) (now : ℤ)
    (fetch : Except String OfacData) :
    Except String OfacData × CacheState × Bool :=
  match fetch with
  | .ok d => (Except.ok d, ⟨some d, some now⟩, true)
  | .error e =>
      match st.data with
      | some d => (Except.ok d, st, true)
      | Option.none =>
          (Except.error ("Failed to get OFAC data: " ++ e), st, true)

/-- Source `download_ofac_sdn_data` (lines 18-88): serve the cache when both
fields are set and it is younger than 24 hours, otherwise attempt a
fetch. -/
def downloadOfac (st : CacheState) (now : ℤ)
    (fetch : Except String OfacData) :
    Except String OfacData × CacheState × Bool :=
  match st.data, st.time with
  | some d, some t =>
      if now - t < 86400 then (Except.ok d, st, false)
      else attemptFetch st now fetch
  | some _, Option.none => attemptFetch st now fetch
  | Option.none, _ => attemptFetch st now fetch

/-! ## State-machine model of concurrent callers (§5 of the spec)

`download_ofac_sdn_data` is an `async` coroutine: under Python's asyncio a
caller runs without preemption between `await` points.  The function has
one suspension region — the awaited HTTP request (lines 40-45) — so a call
splits into two atomic phases: the freshness check up to starting the
request, and everything after the response arrives (validation, parse and
the two cache assignments at lines 70-71, which happen with no intervening
`await`).  `stepCaller` is that two-phase view for one caller with a
successful fetch returning `payload`; `raceRun` interleaves two callers
under an arbitrary schedule. -/

inductive Pc where
  | start : Pc
  | awaiting : Pc
  | done : Pc
deriving DecidableEq

structure CallerSt where
  pc : Pc
  ret : Option OfacData
deriving DecidableEq

structure RaceSt where
  cache : CacheState
  caller1 : CallerSt
  caller2 : CallerSt
  fetches : ℕ
deriving DecidableEq

/-- Advance one caller by one atomic phase. In phase `.start` it performs
the freshness check of lines 31-35: a fresh cache is returned at once, a
stale or empty one starts a fetch (counted in `fetches`). In phase
`.awaiting` the response has arrived: both cache fields are assigned in
one atomic step (lines 70-71) and the data is returned. -/
def stepCaller (now : ℤ) (payload : OfacData) (cache : CacheState)
    (fetches : ℕ) (c : CallerSt) : CacheState × ℕ × CallerSt :=
  match c.pc with
  | .start =>
      match cache.data, cache.time with
      | some d, some t =>
          if now - t < 86400 then (cache, fetches, ⟨.done, some d⟩)
          else (cache, fetches + 1, ⟨.awaiting, Option.none⟩)
      | some _, Option.none => (cache, fetches + 1, ⟨.awaiting, Option.none⟩)
      | Option.none, _ => (cache, fetches + 1, ⟨.awaiting, Option.none⟩)
  | .awaiting => (⟨some payload, some now⟩, fetches, ⟨.done, some payload⟩)
  | .done => (cache, fetches, c)

/-- One scheduler step: `true` runs caller 1, `false` runs caller 2. -/
def raceStep (now : ℤ) (payload : OfacData) (s : RaceSt) (which : Bool) :
    RaceSt :=
  if which then
    let r := stepCaller now payload s.cache s.fetches s.caller1
    ⟨r.1, r.2.2, s.caller2, r.2.1⟩
  else
    let r := stepCaller now payload s.cache s.fetches s.caller2
    ⟨r.1, s.caller1, r.2.2, r.2.1⟩

/-- Run a schedule of interleaved caller steps. -/
def raceRun (now : ℤ) (payload : OfacData) (s : RaceSt) :
    List Bool → RaceSt
  | [] => s
  | w :: ws => raceRun now payload (raceStep now payload s w) ws

/-- Cold start: empty cache, both callers about to check it. -/
def raceInit : RaceSt :=
  ⟨⟨Option.none, Option.none⟩, ⟨.start, Option.none⟩, ⟨.start, Option.none⟩, 0⟩

/-- Cache fields are written together: the torn state "dataset set but
timestamp not set" (or vice versa). -/
def cacheConsistent (s : RaceSt) : Prop :=
  s.cache.data.isSome = s.cache.time.isSome

/-! ## Concrete fixtures for witnesses -/

/-- A constant stand-in for `fuzz.token_sort_ratio` in witnesses. -/
def tsrW : String → String → ℚ := fun _ _ => 90

/-- A constant stand-in for `fuzz.ratio` in witnesses. -/
def rtoW : String → String → ℚ := fun _ _ => 70

/-- A two-name entry (primary plus one alias). -/
def entryW : SdnEntry :=
  { firstName := "Vladimir"
    lastName := "Putin"
    akaList := .single (Aka.mk "Vladimir" "Putinn")
    uid := some "U1" }

/-- An entry whose `programList` carries a single scalar program. -/
def entryProgW : SdnEntry :=
  { firstName := "Acme"
    lastName := "Corp"
    programList := .asDict (some (.scalar "SDGT"))
    uid := some "U2" }

/-- An entry with a city-and-country-only address. -/
def moscowEntry : SdnEntry :=
  { addressList := .single (Address.mk "" "" "" "Moscow" "" "" "Russia") }

def dataW : OfacData :=
  { entries := .single entryW
    pubDate := some "01/01/2024" }

def cacheW : CacheState := ⟨some dataW, some 0⟩

/-! ## Helper lemmas -/

/-- The seven-field accumulation loop of `addrStep` is exactly a filter
of the present fields. -/
lemma foldl_snoc_filter (l acc : List String) :
    l.foldl (fun ps v => if v ≠ "" then ps ++ [v] else ps) acc
      = acc ++ l.filter (fun v => v ≠ "") := by
  induction l generalizing acc with
  | nil => simp
  | cons x xs ih =>
      show List.foldl _ (if x ≠ "" then acc ++ [x] else acc) xs
            = acc ++ List.filter _ (x :: xs)
      rw [List.filter_cons]
      by_cases hx : x = ""
      · rw [if_neg (by simp [hx]), if_neg (by simp [hx])]
        exact ih acc
      · rw [if_pos hx, if_pos (by simp [hx]), ih (acc ++ [x]),
          List.append_assoc]
        rfl

/-- The non-empty components of an address, in the source's fixed order. -/
def addressParts (a : Address) : List String :=
  [a.address1, a.address2, a.address3, a.city, a.stateOrProvince,
   a.postalCode, a.country].filter (fun v => v ≠ "")

/-- Declarative form of one formatted address: the present components
joined by `", "`, or nothing when every component is absent. -/
def formatAddress (a : Address) : Option String :=
  if addressParts a = [] then Option.none
  else some (String.intercalate ", " (addressParts a))

lemma addrStep_eq (acc : List String) (a : Address) :
    addrStep acc a = match formatAddress a with
      | some s => acc ++ [s]
      | Option.none => acc := by
  show (if ([a.address1, a.address2, a.address3, a.city, a.stateOrProvince,
        a.postalCode, a.country].foldl
        (fun ps v => if v ≠ "" then ps ++ [v] else ps) []) ≠ [] then
        acc ++ [String.intercalate ", "
          ([a.address1, a.address2, a.address3, a.city, a.stateOrProvince,
            a.postalCode, a.country].foldl
            (fun ps v => if v ≠ "" then ps ++ [v] else ps) [])]
      else acc)
    = match formatAddress a with
      | some s => acc ++ [s]
      | Option.none => acc
  rw [foldl_snoc_filter, List.nil_append]
  show (if addressParts a ≠ [] then
        acc ++ [String.intercalate ", " (addressParts a)] else acc)
    = match formatAddress a with
      | some s => acc ++ [s]
      | Option.none => acc
  unfold formatAddress
  by_cases h : addressParts a = []
  · rw [if_neg (not_not_intro h), if_pos h]
  · rw [if_pos h, if_neg h]

lemma extract_addresses_go (l : List Address) (acc : List String) :
    l.foldl addrStep acc = acc ++ l.filterMap formatAddress := by
  induction l generalizing acc with
  | nil => simp
  | cons a as ih =>
      rw [List.foldl_cons, List.filterMap_cons, addrStep_eq]
      cases h : formatAddress a with
      | none => exact ih acc
      | some s => rw [ih (acc ++ [s]), List.append_assoc]; rfl

/-- **C8.** Address formatting: each formatted address is built from the
seven fields street-line-1..3, city, state/province, postal code, country
in that fixed order, the present non-empty components joined by `", "` and
absent or empty components skipped; an address with only `city="Moscow"`,
`country="Russia"` renders exactly `"Moscow, Russia"`. -/
theorem address_formatting_fixed_order :
    (∀ e : SdnEntry,
        extract_addresses e = e.addressList.toList.filterMap formatAddress) ∧
    extract_addresses moscowEntry = ["Moscow, Russia"] := by
  refine ⟨fun e => ?_, by decide⟩
  unfold extract_addresses
  rw [extract_addresses_go, List.nil_append]

/-- **C7 counterexample.** The program field is not materialized as a
sequence: an entry whose source document carries a single scalar program
value yields a candidate whose `program` is that bare scalar, which is not
the one-element sequence, and the two shapes render differently. -/
theorem program_scalar_not_sequenced :
    ((entryCandidate tsrW rtoW false 85 "acme" entryProgW).map
        Candidate.program = some (ProgramVal.scalar "SDGT")) ∧
    (∀ ls : List String, ProgramVal.scalar "SDGT" ≠ ProgramVal.multi ls) ∧
    showProgram (ProgramVal.scalar "SDGT") = "SDGT" ∧
    showProgram (ProgramVal.multi ["SDGT"]) = "['SDGT']" :=
  ⟨by decide, fun ls h => ProgramVal.noConfusion h, by decide, by decide⟩

/-- **C7 (amended).** The extracted program value is passed through to the
candidate unchanged — a scalar stays a bare scalar, a list stays a list —
and a missing, key-less or non-dict `programList` yields the scalar
sentinel `"Unknown"`; no coercion into a one-element sequence happens at
any boundary. -/
theorem program_passthrough (tsr rto : String → String → ℚ) (fuzzy : Bool)
    (th : ℤ) (ql : String) (e : SdnEntry) (c : Candidate)
    (h : entryCandidate tsr rto fuzzy th ql e = some c) :
    c.program = extractProgram e.programList ∧
    (∀ v, e.programList = .asDict (some v) → c.program = v) ∧
    extractProgram ProgramListField.missing = .scalar "Unknown" ∧
    extractProgram ProgramListField.nonDict = .scalar "Unknown" ∧
    extractProgram (.asDict Option.none) = .scalar "Unknown" := by
  simp only [entryCandidate] at h
  split at h <;> split at h <;>
    first
      | exact Option.noConfusion h
      | (injection h with h2
         subst h2
         refine ⟨rfl, fun v hv => ?_, rfl, rfl, rfl⟩
         show extractProgram e.programList = v
         rw [hv]
         rfl)

/-- The candidate produced for `entryProgW` by an exact search. -/
def candProgW : Candidate :=
  { name := "Acme Corp"
    matched_name := Option.none
    match_score := 100
    aliases := []
    sdnType := "Unknown"
    program := .scalar "SDGT"
    addresses := []
    remarks := ""
    uid := "U2" }

/-- Witness instance for the amended C7. -/
theorem program_passthrough_witness :
    (entryCandidate tsrW rtoW false 85 "acme" entryProgW = some candProgW) ∧
    (candProgW.program = extractProgram entryProgW.programList ∧
     (∀ v, entryProgW.programList = .asDict (some v) →
        candProgW.program = v) ∧
     extractProgram ProgramListField.missing = .scalar "Unknown" ∧
     extractProgram ProgramListField.nonDict = .scalar "Unknown" ∧
     extractProgram (.asDict Option.none) = .scalar "Unknown") :=
  ⟨by decide,
   program_passthrough tsrW rtoW false 85 "acme" entryProgW candProgW
     (by decide)⟩

/-- **C4.** `getDataset` failure path: when the cache is not fresh and the
fetch (or parse) fails, the cache state is left completely unchanged, and
the call returns the previously loaded dataset when one exists, else it
raises the unavailable error. -/
theorem getDataset_failure_path (st : CacheState) (now : ℤ) (e : String)
    (hstale : ∀ d t, st.data = some d → st.time = some t → 86400 ≤ now - t) :
    (downloadOfac st now (Except.error e)).2.1 = st ∧
    (downloadOfac st now (Except.error e)).1
      = (match st.data with
         | some d => Except.ok d
         | Option.none =>
             Except.error ("Failed to get OFAC data: " ++ e)) := by
  rcases st with ⟨sd, stime⟩
  cases sd with
  | none => cases stime <;> simp [downloadOfac, attemptFetch]
  | some d =>
      cases stime with
      | none => simp [downloadOfac, attemptFetch]
      | some t =>
          have h := hstale d t rfl rfl
          simp [downloadOfac, attemptFetch, not_lt.mpr h]

/-- Witness instance for C4: a stale, previously loaded cache survives a
failed refresh untouched and is served. -/
theorem getDataset_failure_path_witness :
    (∀ d t, cacheW.data = some d → cacheW.time = some t →
        (86400 : ℤ) ≤ 100000 - t) ∧
    ((downloadOfac cacheW 100000 (Except.error "boom")).2.1 = cacheW ∧
     (downloadOfac cacheW 100000 (Except.error "boom")).1
       = (match cacheW.data with
          | some d => Except.ok d
          | Option.none =>
              Except.error ("Failed to get OFAC data: " ++ "boom"))) :=
  have hst : ∀ d t, cacheW.data = some d → cacheW.time = some t →
      (86400 : ℤ) ≤ 100000 - t := fun d t _ ht => by
    have h : (0 : ℤ) = t := Option.some.inj ht
    subst h
    decide
  ⟨hst, getDataset_failure_path cacheW 100000 "boom" hst⟩

/-- A successful fetch attempt leaves the returned dataset in the cache. -/
lemma attemptFetch_ok_data (st : CacheState) (now : ℤ)
    (f : Except String OfacData) (d : OfacData) (st' : CacheState) (b : Bool)
    (h : attemptFetch st now f = (Except.ok d, st', b)) :
    st'.data = some d := by
  unfold attemptFetch at h
  split at h
  · injection h with ha hb
    injection hb with hb1 hb2
    rw [← hb1]
    simp [Except.ok.inj ha]
  · split at h
    · rename_i d1 heq
      injection h with ha hb
      injection hb with hb1 hb2
      rw [← hb1, heq, Except.ok.inj ha]
    · injection h with ha hb
      exact Except.noConfusion ha

/-- A successful call leaves the returned dataset in the cache. -/
lemma downloadOfac_ok_data (st : CacheState) (now : ℤ)
    (f : Except String OfacData) (d : OfacData) (st' : CacheState) (b : Bool)
    (h : downloadOfac st now f = (Except.ok d, st', b)) :
    st'.data = some d := by
  unfold downloadOfac at h
  split at h
  · rename_i d0 t heqd heqt
    split at h
    · injection h with ha hb
      injection hb with hb1 hb2
      rw [← hb1, heqd, Except.ok.inj ha]
    · exact attemptFetch_ok_data _ _ _ _ _ _ h
  · exact attemptFetch_ok_data _ _ _ _ _ _ h
  · exact attemptFetch_ok_data _ _ _ _ _ _ h

/-- **C5.** Cache idempotence: after a successful call that leaves fetch
time `tf` in the cache, a second call within the 24-hour TTL window
returns the same dataset with the cache unchanged and performs no fetch,
so the two calls perform at most one fetch in total. -/
theorem cache_idempotent_within_ttl (st : CacheState) (t1 t2 : ℤ)
    (f1 f2 : Except String OfacData) (d : OfacData) (st1 : CacheState)
    (b1 : Bool) (tf : ℤ)
    (h1 : downloadOfac st t1 f1 = (Except.ok d, st1, b1))
    (ht : st1.time = some tf) (hfresh : t2 - tf < 86400) :
    downloadOfac st1 t2 f2 = (Except.ok d, st1, false) ∧
    (cond b1 1 0) + (cond (downloadOfac st1 t2 f2).2.2 1 0) ≤ 1 := by
  have hd := downloadOfac_ok_data st t1 f1 d st1 b1 h1
  rcases st1 with ⟨sd1, stime1⟩
  have hd' : sd1 = some d := hd
  have ht' : stime1 = some tf := ht
  subst hd'
  subst ht'
  have h2 : downloadOfac ⟨some d, some tf⟩ t2 f2
      = (Except.ok d, ⟨some d, some tf⟩, false) := by
    simp [downloadOfac, hfresh]
  refine ⟨h2, ?_⟩
  rw [h2]
  cases b1 <;> simp

/-- Witness instance for C5: a cold-start success at time 0 followed by a
call at time 1000 serves the cache with no second fetch. -/
theorem cache_idempotent_within_ttl_witness :
    (downloadOfac ⟨Option.none, Option.none⟩ 0 (Except.ok dataW)
        = (Except.ok dataW, ⟨some dataW, some 0⟩, true)) ∧
    ((⟨some dataW, some 0⟩ : CacheState).time = some 0) ∧
    ((1000 : ℤ) - 0 < 86400) ∧
    (downloadOfac ⟨some dataW, some 0⟩ 1000 (Except.error "x")
        = (Except.ok dataW, ⟨some dataW, some 0⟩, false) ∧
     (cond true 1 0) +
        (cond (downloadOfac ⟨some dataW, some 0⟩ 1000
          (Except.error "x")).2.2 1 0) ≤ 1) :=
  ⟨rfl, rfl, by decide,
   cache_idempotent_within_ttl ⟨Option.none, Option.none⟩ 0 1000
     (Except.ok dataW) (Except.error "x") dataW ⟨some dataW, some 0⟩ true 0
     rfl rfl (by decide)⟩

/-- **C9 counterexample.** No single-flight coalescing exists: from a cold
(hence stale) cache, the schedule that lets both callers run their
staleness check before either response arrives leaves both callers
awaiting their own fetch — two fetches in flight at once in a single
staleness window. -/
theorem concurrent_refresh_not_single_flight :
    (raceRun 0 dataW raceInit [true, false]).fetches = 2 ∧
    (raceRun 0 dataW raceInit [true, false]).caller1.pc = Pc.awaiting ∧
    (raceRun 0 dataW raceInit [true, false]).caller2.pc = Pc.awaiting :=
  ⟨rfl, rfl, rfl⟩

/-- Each caller that has left its initial phase accounts for at most one
started fetch. -/
def startedCount (c : CallerSt) : ℕ :=
  if c.pc = Pc.start then 0 else 1

/-- Invariant of the race model: fetches are bounded by the callers that
have started one, and the cache fields are set together. -/
def raceInv (s : RaceSt) : Prop :=
  s.fetches ≤ startedCount s.caller1 + startedCount s.caller2 ∧
    cacheConsistent s

lemma startedCount_le_one (c : CallerSt) : startedCount c ≤ 1 := by
  unfold startedCount
  split <;> simp

lemma stepCaller_shape (now : ℤ) (payload : OfacData) (cache : CacheState)
    (fetches : ℕ) (c : CallerSt) :
    ((stepCaller now payload cache fetches c).2.1 = fetches ∨
      (stepCaller now payload cache fetches c).2.1 = fetches + 1) ∧
    ((stepCaller now payload cache fetches c).2.1 = fetches + 1 →
      c.pc = Pc.start ∧
      (stepCaller now payload cache fetches c).2.2.pc ≠ Pc.start) ∧
    startedCount c ≤
      startedCount (stepCaller now payload cache fetches c).2.2 ∧
    ((stepCaller now payload cache fetches c).1 = cache ∨
      (stepCaller now payload cache fetches c).1 = ⟨some payload, some now⟩) := by
  rcases c with ⟨pc, ret⟩
  rcases cache with ⟨cd, ct⟩
  cases pc with
  | start =>
      cases cd with
      | none =>
          cases ct <;>
            exact ⟨Or.inr rfl, fun _ => ⟨rfl, fun hh => Pc.noConfusion hh⟩,
              Nat.zero_le _, Or.inl rfl⟩
      | some d =>
          cases ct with
          | none =>
              exact ⟨Or.inr rfl, fun _ => ⟨rfl, fun hh => Pc.noConfusion hh⟩,
                Nat.zero_le _, Or.inl rfl⟩
          | some t =>
              by_cases hfr : now - t < 86400
              · have hred : stepCaller now payload ⟨some d, some t⟩ fetches
                    ⟨Pc.start, ret⟩
                    = (⟨some d, some t⟩, fetches, ⟨Pc.done, some d⟩) := by
                  simp [stepCaller, hfr]
                rw [hred]
                exact ⟨Or.inl rfl, fun he => absurd he (by simp),
                  Nat.zero_le _, Or.inl rfl⟩
              · have hred : stepCaller now payload ⟨some d, some t⟩ fetches
                    ⟨Pc.start, ret⟩
                    = (⟨some d, some t⟩, fetches + 1,
                        ⟨Pc.awaiting, Option.none⟩) := by
                  simp [stepCaller, hfr]
                rw [hred]
                exact ⟨Or.inr rfl, fun _ => ⟨rfl, fun hh => Pc.noConfusion hh⟩,
                  Nat.zero_le _, Or.inl rfl⟩
  | awaiting =>
      exact ⟨Or.inl rfl, fun he => absurd he (by simp [stepCaller]),
        Nat.le_refl _, Or.inr rfl⟩
  | done =>
      exact ⟨Or.inl rfl, fun he => absurd he (by simp [stepCaller]),
        Nat.le_refl _, Or.inl rfl⟩

lemma raceStep_inv (now : ℤ) (payload : OfacData) (s : RaceSt) (w : Bool)
    (h : raceInv s) : raceInv (raceStep now payload s w) := by
  obtain ⟨hf, hc⟩ := h
  cases w
  · obtain ⟨h3, h2, h6, h5⟩ :=
      stepCaller_shape now payload s.cache s.fetches s.caller2
    constructor
    · show (stepCaller now payload s.cache s.fetches s.caller2).2.1
        ≤ startedCount s.caller1 + startedCount
            (stepCaller now payload s.cache s.fetches s.caller2).2.2
      rcases h3 with he | he
      · rw [he]
        exact le_trans hf (Nat.add_le_add_left h6 _)
      · obtain ⟨hcp, hnp⟩ := h2 he
        have hz : startedCount s.caller2 = 0 := by
          unfold startedCount
          rw [if_pos hcp]
        have ho : startedCount
            (stepCaller now payload s.cache s.fetches s.caller2).2.2 = 1 := by
          unfold startedCount
          rw [if_neg hnp]
        rw [he]
        omega
    · show ((stepCaller now payload s.cache s.fetches s.caller2).1).data.isSome
        = ((stepCaller now payload s.cache s.fetches s.caller2).1).time.isSome
      rcases h5 with he | he <;> rw [he]
      · exact hc
      · rfl
  · obtain ⟨h3, h2, h6, h5⟩ :=
      stepCaller_shape now payload s.cache s.fetches s.caller1
    constructor
    · show (stepCaller now payload s.cache s.fetches s.caller1).2.1
        ≤ startedCount
            (stepCaller now payload s.cache s.fetches s.caller1).2.2 +
          startedCount s.caller2
      rcases h3 with he | he
      · rw [he]
        exact le_trans hf (Nat.add_le_add_right h6 _)
      · obtain ⟨hcp, hnp⟩ := h2 he
        have hz : startedCount s.caller1 = 0 := by
          unfold startedCount
          rw [if_pos hcp]
        have ho : startedCount
            (stepCaller now payload s.cache s.fetches s.caller1).2.2 = 1 := by
          unfold startedCount
          rw [if_neg hnp]
        rw [he]
        omega
    · show ((stepCaller now payload s.cache s.fetches s.caller1).1).data.isSome
        = ((stepCaller now payload s.cache s.fetches s.caller1).1).time.isSome
      rcases h5 with he | he <;> rw [he]
      · exact hc
      · rfl

lemma raceRun_inv (now : ℤ) (payload : OfacData) (sched : List Bool) :
    ∀ s, raceInv s → raceInv (raceRun now payload s sched) := by
  induction sched with
  | nil => exact fun s h => h
  | cons w ws ih => exact fun s h => ih _ (raceStep_inv now payload s w h)

/-- **C9 (amended).** The code performs no single-flight coalescing (see
the counterexample): concurrent stale callers may each start their own
fetch, up to one per caller — never more than the number of callers — and
the torn cache state "dataset set but timestamp not yet set" is still
never observable, because both fields are assigned in one atomic
(no-await) step. -/
theorem refresh_bounded_and_no_torn_state (now : ℤ) (payload : OfacData)
    (sched : List Bool) :
    (raceRun now payload raceInit sched).fetches ≤ 2 ∧
    cacheConsistent (raceRun now payload raceInit sched) := by
  have h := raceRun_inv now payload sched raceInit
    ⟨Nat.zero_le _, rfl⟩
  obtain ⟨h1, h2⟩ := h
  refine ⟨le_trans h1 ?_, h2⟩
  have a1 := startedCount_le_one (raceRun now payload raceInit sched).caller1
  have a2 := startedCount_le_one (raceRun now payload raceInit sched).caller2
  omega

/-- Witness instance for the amended C9 at a concrete schedule. -/
theorem refresh_bounded_and_no_torn_state_witness :
    (raceRun 0 dataW raceInit [true, false, true, false]).fetches ≤ 2 ∧
    cacheConsistent (raceRun 0 dataW raceInit [true, false, true, false]) :=
  refresh_bounded_and_no_torn_state 0 dataW [true, false, true, false]

lemma failureMsg_ne_invalid (e : String) : failureMsg e ≠ invalidInputMsg := by
  intro h
  have h1 := congrArg (fun s : String => s.data.get? 2) h
  have h2 : (some 'O' : Option Char) = some 'E' := h1
  exact absurd h2 (by decide)

lemma renderAll_ne_invalid (f : Bool) (n p : String) (ms : List Candidate) :
    renderAll f n p ms ≠ invalidInputMsg := by
  unfold renderAll
  split
  · intro h
    have h1 := congrArg (fun s : String => s.data.get? 0) h
    have h2 : (some '⚠' : Option Char) = some '❌' := h1
    exact absurd h2 (by decide)
  · intro h
    have h1 := congrArg (fun s : String => s.data.get? 0) h
    have h2 : (some '✅' : Option Char) = some '❌' := h1
    exact absurd h2 (by decide)

/-- **C3.** Invalid input is the only hard failure: `check_ofac` produces
the distinguished invalid-input signal exactly when the query is empty or
whitespace-only after trimming, and on any fetch/parse failure (transport,
format, size, unavailability) it instead returns the descriptive failure
text — the function is total and never raises past its boundary. -/
theorem invalid_input_only_hard_failure (tsr rto : String → String → ℚ)
    (name : String) (fuzzy : Bool) (th : ℤ)
    (dataRes : Except String OfacData) :
    (checkOfac tsr rto name fuzzy th dataRes = invalidInputMsg ↔
      pyStrip name = "") ∧
    (∀ e, dataRes = Except.error e → pyStrip name ≠ "" →
      checkOfac tsr rto name fuzzy th dataRes = failureMsg e) := by
  by_cases hs : pyStrip name = ""
  · refine ⟨⟨fun _ => hs, fun _ => ?_⟩, fun e _ hne => absurd hs hne⟩
    unfold checkOfac
    rw [if_pos hs]
  · constructor
    · unfold checkOfac
      rw [if_neg hs]
      constructor
      · intro h
        exfalso
        cases dataRes with
        | error e => exact failureMsg_ne_invalid e h
        | ok data => exact renderAll_ne_invalid _ _ _ _ h
      · intro h
        exact absurd h hs
    · intro e hdr hne
      unfold checkOfac
      rw [if_neg hs, hdr]

/-- Witness instance for C3 at a whitespace-only query. -/
theorem invalid_input_only_hard_failure_witness :
    (checkOfac tsrW rtoW "   " true 85 (Except.ok dataW) = invalidInputMsg ↔
      pyStrip "   " = "") ∧
    (∀ e, Except.ok dataW = Except.error e → pyStrip "   " ≠ "" →
      checkOfac tsrW rtoW "   " true 85 (Except.ok dataW) = failureMsg e) :=
  invalid_input_only_hard_failure tsrW rtoW "   " true 85 (Except.ok dataW)

/-- Witness instance for C8 at the Moscow entry. -/
theorem address_formatting_fixed_order_witness :
    extract_addresses moscowEntry
        = moscowEntry.addressList.toList.filterMap formatAddress ∧
      extract_addresses moscowEntry = ["Moscow, Russia"] :=
  ⟨address_formatting_fixed_order.1 moscowEntry,
   address_formatting_fixed_order.2⟩

/-! ## C1: exact-mode search -/

/-- The exact-mode test for one candidate name (line 208). -/
def exactPred (ql : String) (n : String) : Bool :=
  substrB ql.data (pyLower n).data

/-- The exact scan is a first-match search: it returns the first name
containing the query, with score 100, and leaves the accumulator on a
miss. -/
lemma exactScan_eq_find (ql : String) (ns : List String)
    (acc : Bool × ℚ × String) :
    exactScan ql ns acc = match ns.find? (exactPred ql) with
      | some n => (true, 100, n)
      | Option.none => acc := by
  induction ns generalizing acc with
  | nil => rfl
  | cons n ns ih =>
      show (if substrB ql.data (pyLower n).data = true then (true, 100, n)
            else exactScan ql ns acc) = _
      cases hp : substrB ql.data (pyLower n).data with
      | true =>
          rw [if_pos rfl,
            List.find?_cons_of_pos _ (show exactPred ql n = true from hp)]
      | false =>
          rw [if_neg (by simp),
            List.find?_cons_of_neg _
              (show ¬exactPred ql n = true by simp [exactPred, hp]), ih]

/-- Unfolding of a successful exact-mode `entryCandidate`. -/
lemma entryCandidate_false_some (tsr rto : String → String → ℚ) (th : ℤ)
    (ql : String) (e : SdnEntry) (c : Candidate) :
    entryCandidate tsr rto false th ql e = some c ↔
      ((exactScan ql (allNames e) (false, 0, fullNameOf e)).1 = true ∧
        c = mkCandidate e
          (exactScan ql (allNames e) (false, 0, fullNameOf e))) := by
  unfold entryCandidate
  show (if (exactScan ql (allNames e) (false, 0, fullNameOf e)).1 = true
        then some (mkCandidate e
          (exactScan ql (allNames e) (false, 0, fullNameOf e)))
        else Option.none) = some c ↔ _
  split
  · rename_i hr
    exact ⟨fun h => ⟨hr, (Option.some.inj h).symm⟩, fun h => by rw [h.2]⟩
  · rename_i hr
    exact ⟨fun h => Option.noConfusion h, fun h => absurd h.1 hr⟩

/-- Unfolding of a successful fuzzy-mode `entryCandidate`. -/
lemma entryCandidate_true_some (tsr rto : String → String → ℚ) (th : ℤ)
    (ql : String) (e : SdnEntry) (c : Candidate) :
    entryCandidate tsr rto true th ql e = some c ↔
      ((fuzzyScan th (nameScore tsr rto ql) (allNames e)
          (false, 0, fullNameOf e)).1 = true ∧
        c = mkCandidate e (fuzzyScan th (nameScore tsr rto ql) (allNames e)
          (false, 0, fullNameOf e))) := by
  unfold entryCandidate
  show (if (fuzzyScan th (nameScore tsr rto ql) (allNames e)
          (false, 0, fullNameOf e)).1 = true
        then some (mkCandidate e (fuzzyScan th (nameScore tsr rto ql)
          (allNames e) (false, 0, fullNameOf e)))
        else Option.none) = some c ↔ _
  split
  · rename_i hr
    exact ⟨fun h => ⟨hr, (Option.some.inj h).symm⟩, fun h => by rw [h.2]⟩
  · rename_i hr
    exact ⟨fun h => Option.noConfusion h, fun h => absurd h.1 hr⟩

lemma insertByScore_perm (c : Candidate) (l : List Candidate) :
    (insertByScore c l).Perm (c :: l) := by
  induction l with
  | nil => exact List.Perm.refl _
  | cons d ds ih =>
      unfold insertByScore
      split
      · exact List.Perm.refl _
      · exact (List.Perm.cons d ih).trans (List.Perm.swap c d ds)

lemma sortByScoreDesc_perm (l : List Candidate) :
    (sortByScoreDesc l).Perm l := by
  induction l with
  | nil => exact List.Perm.refl _
  | cons c cs ih =>
      exact (insertByScore_perm c _).trans (List.Perm.cons c ih)

lemma mem_searchSorted (tsr rto : String → String → ℚ) (fuzzy : Bool)
    (th : ℤ) (ql : String) (es : List SdnEntry) (c : Candidate) :
    c ∈ searchSorted tsr rto fuzzy th ql es ↔
      ∃ e, e ∈ es ∧ entryCandidate tsr rto fuzzy th ql e = some c := by
  unfold searchSorted searchMatches
  rw [(sortByScoreDesc_perm _).mem_iff, List.mem_filterMap]

/-- Exact-mode per-entry facts: score 100 and first matching name. -/
lemma entryCandidate_exact_props (tsr rto : String → String → ℚ) (th : ℤ)
    (ql : String) (e : SdnEntry) (c : Candidate)
    (h : entryCandidate tsr rto false th ql e = some c) :
    c.match_score = 100 ∧
    (allNames e).find? (exactPred ql) = some (recordedName c) := by
  obtain ⟨hr, hc⟩ := (entryCandidate_false_some tsr rto th ql e c).1 h
  rw [exactScan_eq_find] at hr hc
  cases hfind : (allNames e).find? (exactPred ql) with
  | none =>
      rw [hfind] at hr
      simp at hr
  | some n =>
      rw [hfind] at hr hc
      subst hc
      refine ⟨rfl, ?_⟩
      by_cases hn : n = fullNameOf e <;>
        simp [recordedName, mkCandidate, hn]

/-- Exact-mode membership: an entry yields a candidate iff the query is a
substring of one of its names. -/
lemma entryCandidate_exact_isSome (tsr rto : String → String → ℚ) (th : ℤ)
    (ql : String) (e : SdnEntry) :
    (entryCandidate tsr rto false th ql e).isSome ↔
      ∃ n ∈ allNames e, substrB ql.data (pyLower n).data = true := by
  constructor
  · intro h
    obtain ⟨c, hc⟩ := Option.isSome_iff_exists.1 h
    obtain ⟨hr, _⟩ := (entryCandidate_false_some tsr rto th ql e c).1 hc
    rw [exactScan_eq_find] at hr
    cases hfind : (allNames e).find? (exactPred ql) with
    | none =>
        rw [hfind] at hr
        simp at hr
    | some n =>
        have hpa : exactPred ql n = true := List.find?_some hfind
        exact ⟨n, List.mem_of_find?_eq_some hfind, hpa⟩
  · rintro ⟨n, hmem, hsub⟩
    have hfs : ((allNames e).find? (exactPred ql)).isSome := by
      rw [List.find?_isSome]
      exact ⟨n, hmem, hsub⟩
    obtain ⟨m, hm⟩ := Option.isSome_iff_exists.1 hfs
    refine Option.isSome_iff_exists.2
      ⟨mkCandidate e (exactScan ql (allNames e) (false, 0, fullNameOf e)),
       (entryCandidate_false_some tsr rto th ql e _).2 ⟨?_, rfl⟩⟩
    rw [exactScan_eq_find, hm]

/-- **C1.** Exact-mode search: the candidates are exactly those of entries
with the lower-cased query a substring of a lower-cased name (primary or
alias); every candidate scores exactly 100; and the recorded matched name
is the first matching name in primary-then-aliases order. -/
theorem exact_mode_characterization (tsr rto : String → String → ℚ)
    (q : String) (th : ℤ) (es : List SdnEntry) (hq : q ≠ "") :
    (∀ c, c ∈ searchSorted tsr rto false th (pyLower q) es ↔
       ∃ e, e ∈ es ∧
         entryCandidate tsr rto false th (pyLower q) e = some c) ∧
    (∀ c, c ∈ searchSorted tsr rto false th (pyLower q) es →
       c.match_score = 100) ∧
    (∀ e, (entryCandidate tsr rto false th (pyLower q) e).isSome ↔
       ∃ n ∈ allNames e,
         substrB (pyLower q).data (pyLower n).data = true) ∧
    (∀ e c, entryCandidate tsr rto false th (pyLower q) e = some c →
       (allNames e).find? (exactPred (pyLower q)) = some (recordedName c)) := by
  refine ⟨fun c => mem_searchSorted tsr rto false th (pyLower q) es c,
    fun c hc => ?_,
    fun e => entryCandidate_exact_isSome tsr rto th (pyLower q) e,
    fun e c hc => (entryCandidate_exact_props tsr rto th (pyLower q) e c hc).2⟩
  obtain ⟨e, _, he⟩ := (mem_searchSorted tsr rto false th (pyLower q) es c).1 hc
  exact (entryCandidate_exact_props tsr rto th (pyLower q) e c he).1

/-- Witness instance for C1 on a one-entry dataset. -/
theorem exact_mode_characterization_witness :
    (("putin" : String) ≠ "") ∧
    ((∀ c, c ∈ searchSorted tsrW rtoW false 85 (pyLower "putin") [entryW] ↔
        ∃ e, e ∈ [entryW] ∧
          entryCandidate tsrW rtoW false 85 (pyLower "putin") e = some c) ∧
     (∀ c, c ∈ searchSorted tsrW rtoW false 85 (pyLower "putin") [entryW] →
        c.match_score = 100) ∧
     (∀ e, (entryCandidate tsrW rtoW false 85 (pyLower "putin") e).isSome ↔
        ∃ n ∈ allNames e,
          substrB (pyLower "putin").data (pyLower n).data = true) ∧
     (∀ e c, entryCandidate tsrW rtoW false 85 (pyLower "putin") e = some c →
        (allNames e).find? (exactPred (pyLower "putin"))
          = some (recordedName c))) :=
  ⟨by decide,
   exact_mode_characterization tsrW rtoW "putin" 85 [entryW] (by decide)⟩

/-! ## C2, C10: fuzzy-mode search -/

/-- Full characterization of the fuzzy loop from an accumulator
`(m₀, s₀, mn₀)`: either no name qualifies above `s₀` and the accumulator
survives unchanged, or the loop ends matched on the maximal qualifying
score `s`, recording the first name that attains `s`. -/
lemma fuzzyScan_spec (th : ℤ) (sc : String → ℚ) (ns : List String) :
    ∀ (m₀ : Bool) (s₀ : ℚ) (mn₀ : String),
      (fuzzyScan th sc ns (m₀, s₀, mn₀) = (m₀, s₀, mn₀) ∧
        ∀ n ∈ ns, (th : ℚ) ≤ sc n → sc n ≤ s₀)
      ∨ (∃ s mn, fuzzyScan th sc ns (m₀, s₀, mn₀) = (true, s, mn) ∧
          s₀ < s ∧ (th : ℚ) ≤ s ∧ sc mn = s ∧
          (∀ n ∈ ns, (th : ℚ) ≤ sc n → sc n ≤ s) ∧
          ns.find? (fun n => decide (sc n = s)) = some mn) := by
  induction ns with
  | nil =>
      intro m₀ s₀ mn₀
      exact Or.inl ⟨rfl, by simp⟩
  | cons n ns ih =>
      intro m₀ s₀ mn₀
      have hstep : fuzzyScan th sc (n :: ns) (m₀, s₀, mn₀)
          = if (th : ℚ) ≤ sc n ∧ s₀ < sc n then
              fuzzyScan th sc ns (true, sc n, n)
            else fuzzyScan th sc ns (m₀, s₀, mn₀) := rfl
      rw [hstep]
      by_cases hc : (th : ℚ) ≤ sc n ∧ s₀ < sc n
      · rw [if_pos hc]
        rcases ih true (sc n) n with ⟨heq, hbound⟩ |
          ⟨s, mn, heq, hlt, hth, hmn, hbound, hfind⟩
        · right
          refine ⟨sc n, n, heq, hc.2, hc.1, rfl, ?_, ?_⟩
          · intro x hx hthx
            rcases List.mem_cons.1 hx with hx | hx
            · rw [hx]
            · exact hbound x hx hthx
          · rw [List.find?_cons_of_pos _ (by simp)]
        · right
          refine ⟨s, mn, heq, lt_trans hc.2 hlt, hth, hmn, ?_, ?_⟩
          · intro x hx hthx
            rcases List.mem_cons.1 hx with hx | hx
            · rw [hx]
              exact le_of_lt hlt
            · exact hbound x hx hthx
          · rw [List.find?_cons_of_neg _ (by simp [ne_of_lt hlt]), hfind]
      · rw [if_neg hc]
        rcases ih m₀ s₀ mn₀ with ⟨heq, hbound⟩ |
          ⟨s, mn, heq, hlt, hth, hmn, hbound, hfind⟩
        · left
          refine ⟨heq, ?_⟩
          intro x hx hthx
          rcases List.mem_cons.1 hx with hx | hx
          · rw [hx] at hthx ⊢
            exact not_lt.1 (fun hlt2 => hc ⟨hthx, hlt2⟩)
          · exact hbound x hx hthx
        · right
          refine ⟨s, mn, heq, hlt, hth, hmn, ?_, ?_⟩
          · intro x hx hthx
            rcases List.mem_cons.1 hx with hx | hx
            · rw [hx] at hthx ⊢
              exact le_trans (not_lt.1 (fun hlt2 => hc ⟨hthx, hlt2⟩))
                (le_of_lt hlt)
            · exact hbound x hx hthx
          · have hne : sc n ≠ s := by
              intro hEq
              exact hc ⟨by rw [hEq]; exact hth, by rw [hEq]; exact hlt⟩
            rw [List.find?_cons_of_neg _ (by simp [hne]), hfind]

/-- An entry matches in fuzzy mode iff some of its names scores at least
the threshold and strictly above zero. -/
lemma fuzzyScan_isMatch_iff (th : ℤ) (sc : String → ℚ) (ns : List String)
    (mn₀ : String) :
    (fuzzyScan th sc ns (false, 0, mn₀)).1 = true ↔
      ∃ n ∈ ns, (th : ℚ) ≤ sc n ∧ 0 < sc n := by
  rcases fuzzyScan_spec th sc ns false 0 mn₀ with ⟨heq, hbound⟩ |
    ⟨s, mn, heq, hlt, hth, hmn, hbound, hfind⟩
  · rw [heq]
    constructor
    · intro h
      exact absurd h (by simp)
    · rintro ⟨n, hn, hthn, hpos⟩
      exact absurd (hbound n hn hthn) (not_le.2 hpos)
  · rw [heq]
    constructor
    · intro _
      exact ⟨mn, List.mem_of_find?_eq_some hfind, by rw [hmn]; exact hth,
        by rw [hmn]; exact hlt⟩
    · intro _
      rfl

/-- Fuzzy-mode per-entry facts: the recorded score is attained by some
name, dominates every qualifying name, is at least the threshold, and its
first attainer is the recorded matched name. -/
lemma entryCandidate_fuzzy_props (tsr rto : String → String → ℚ) (th : ℤ)
    (ql : String) (e : SdnEntry) (c : Candidate)
    (h : entryCandidate tsr rto true th ql e = some c) :
    (∃ n ∈ allNames e, nameScore tsr rto ql n = c.match_score) ∧
    (∀ n ∈ allNames e, (th : ℚ) ≤ nameScore tsr rto ql n →
       nameScore tsr rto ql n ≤ c.match_score) ∧
    (th : ℚ) ≤ c.match_score ∧
    (allNames e).find?
        (fun n => decide (nameScore tsr rto ql n = c.match_score))
      = some (recordedName c) := by
  obtain ⟨hr, hc⟩ := (entryCandidate_true_some tsr rto th ql e c).1 h
  rcases fuzzyScan_spec th (nameScore tsr rto ql) (allNames e) false 0
      (fullNameOf e) with ⟨heq, _⟩ |
    ⟨s, mn, heq, hlt, hth, hmn, hbound, hfind⟩
  · rw [heq] at hr
    simp at hr
  · subst hc
    rw [heq]
    refine ⟨⟨mn, List.mem_of_find?_eq_some hfind, hmn⟩, hbound, hth, ?_⟩
    rw [show (mkCandidate e (true, s, mn)).match_score = s from rfl, hfind]
    by_cases hn : mn = fullNameOf e <;>
      simp [recordedName, mkCandidate, hn]

/-- Fuzzy-mode membership criterion at the candidate level. -/
lemma entryCandidate_fuzzy_isSome_iff (tsr rto : String → String → ℚ)
    (th : ℤ) (ql : String) (e : SdnEntry) :
    (entryCandidate tsr rto true th ql e).isSome ↔
      ∃ n ∈ allNames e, (th : ℚ) ≤ nameScore tsr rto ql n ∧
        0 < nameScore tsr rto ql n := by
  constructor
  · intro h
    obtain ⟨c, hc⟩ := Option.isSome_iff_exists.1 h
    obtain ⟨hr, _⟩ := (entryCandidate_true_some tsr rto th ql e c).1 hc
    exact (fuzzyScan_isMatch_iff th (nameScore tsr rto ql) (allNames e)
      (fullNameOf e)).1 hr
  · intro hex
    refine Option.isSome_iff_exists.2
      ⟨mkCandidate e (fuzzyScan th (nameScore tsr rto ql) (allNames e)
        (false, 0, fullNameOf e)),
       (entryCandidate_true_some tsr rto th ql e _).2 ⟨?_, rfl⟩⟩
    exact (fuzzyScan_isMatch_iff th (nameScore tsr rto ql) (allNames e)
      (fullNameOf e)).2 hex

/-- A `filterMap` yields at most as many elements under a stricter
element-wise filter. -/
lemma filterMap_length_mono {α β : Type} (f g : α → Option β) (l : List α)
    (h : ∀ a, (g a).isSome → (f a).isSome) :
    (l.filterMap g).length ≤ (l.filterMap f).length := by
  induction l with
  | nil => exact Nat.le_refl _
  | cons a as ih =>
      rw [List.filterMap_cons, List.filterMap_cons]
      cases hg : g a with
      | none =>
          cases hf : f a with
          | none => exact ih
          | some b =>
              simp only [List.length_cons]
              exact Nat.le_succ_of_le ih
      | some b =>
          have hfa := h a (by rw [hg]; rfl)
          cases hf : f a with
          | none =>
              rw [hf] at hfa
              exact absurd hfa (by simp)
          | some b2 =>
              simp only [List.length_cons]
              exact Nat.succ_le_succ ih

/-- **C2.** Fuzzy-mode thresholding: every returned candidate's recorded
score is at least the threshold; that score is the maximum over the
entry's names of the per-name score (the max of the token-sort similarity
of the whole strings and the best single-word similarity); and raising the
threshold never increases the number of candidates returned. -/
theorem fuzzy_threshold_and_monotonicity (tsr rto : String → String → ℚ)
    (ql : String) (th th' : ℤ) (es : List SdnEntry) :
    (∀ c, c ∈ searchSorted tsr rto true th ql es →
       (th : ℚ) ≤ c.match_score) ∧
    (∀ e c, entryCandidate tsr rto true th ql e = some c →
       (∃ n ∈ allNames e, nameScore tsr rto ql n = c.match_score) ∧
       ∀ n ∈ allNames e, (th : ℚ) ≤ nameScore tsr rto ql n →
         nameScore tsr rto ql n ≤ c.match_score) ∧
    (th ≤ th' →
      (searchSorted tsr rto true th' ql es).length ≤
        (searchSorted tsr rto true th ql es).length) := by
  refine ⟨fun c hc => ?_, fun e c hc => ?_, fun hle => ?_⟩
  · obtain ⟨e, _, he⟩ := (mem_searchSorted tsr rto true th ql es c).1 hc
    exact (entryCandidate_fuzzy_props tsr rto th ql e c he).2.2.1
  · have hp := entryCandidate_fuzzy_props tsr rto th ql e c hc
    exact ⟨hp.1, hp.2.1⟩
  · unfold searchSorted
    rw [(sortByScoreDesc_perm (searchMatches tsr rto true th' ql es)).length_eq,
      (sortByScoreDesc_perm (searchMatches tsr rto true th ql es)).length_eq]
    unfold searchMatches
    refine filterMap_length_mono _ _ es (fun e he => ?_)
    rw [entryCandidate_fuzzy_isSome_iff] at he ⊢
    obtain ⟨n, hn, h1, h2⟩ := he
    exact ⟨n, hn, le_trans (by exact_mod_cast hle) h1, h2⟩

/-- Witness instance for C2 on a one-entry dataset. -/
theorem fuzzy_threshold_and_monotonicity_witness :
    (∀ c, c ∈ searchSorted tsrW rtoW true 85 (pyLower "putin") [entryW] →
       ((85 : ℤ) : ℚ) ≤ c.match_score) ∧
    (∀ e c, entryCandidate tsrW rtoW true 85 (pyLower "putin") e = some c →
       (∃ n ∈ allNames e,
          nameScore tsrW rtoW (pyLower "putin") n = c.match_score) ∧
       ∀ n ∈ allNames e,
         ((85 : ℤ) : ℚ) ≤ nameScore tsrW rtoW (pyLower "putin") n →
           nameScore tsrW rtoW (pyLower "putin") n ≤ c.match_score) ∧
    ((85 : ℤ) ≤ 95 →
      (searchSorted tsrW rtoW true 95 (pyLower "putin") [entryW]).length ≤
        (searchSorted tsrW rtoW true 85 (pyLower "putin") [entryW]).length) :=
  fuzzy_threshold_and_monotonicity tsrW rtoW (pyLower "putin") 85 95 [entryW]

/-- **C10.** Fuzzy tie-breaking: the recorded matched name is the first
name (in primary-then-aliases order) attaining the recorded score, because
a later name replaces the record only on a strictly greater score; and the
recorded score dominates every qualifying name of the entry. -/
theorem fuzzy_tie_break_first_max (tsr rto : String → String → ℚ)
    (ql : String) (th : ℤ) (e : SdnEntry) (c : Candidate)
    (h : entryCandidate tsr rto true th ql e = some c) :
    (allNames e).find?
        (fun n => decide (nameScore tsr rto ql n = c.match_score))
      = some (recordedName c) ∧
    (∀ n ∈ allNames e, (th : ℚ) ≤ nameScore tsr rto ql n →
       nameScore tsr rto ql n ≤ c.match_score) :=
  ⟨(entryCandidate_fuzzy_props tsr rto th ql e c h).2.2.2,
   (entryCandidate_fuzzy_props tsr rto th ql e c h).2.1⟩

/-- The candidate produced for `entryW` by the fuzzy search below: both
names score 90, and the primary name — encountered first — is recorded. -/
def candFuzzyW : Candidate :=
  { name := "Vladimir Putin"
    matched_name := Option.none
    match_score := 90
    aliases := ["Vladimir Putinn"]
    sdnType := "Unknown"
    program := .scalar "Unknown"
    addresses := []
    remarks := ""
    uid := "U1" }

/-- Witness instance for C10 at a two-name tie. -/
theorem fuzzy_tie_break_first_max_witness :
    (entryCandidate tsrW rtoW true 85 (pyLower "putin") entryW
        = some candFuzzyW) ∧
    ((allNames entryW).find?
        (fun n => decide (nameScore tsrW rtoW (pyLower "putin") n
          = candFuzzyW.match_score))
      = some (recordedName candFuzzyW) ∧
     (∀ n ∈ allNames entryW,
        ((85 : ℤ) : ℚ) ≤ nameScore tsrW rtoW (pyLower "putin") n →
          nameScore tsrW rtoW (pyLower "putin") n
            ≤ candFuzzyW.match_score)) :=
  ⟨by decide,
   fuzzy_tie_break_first_max tsrW rtoW (pyLower "putin") 85 entryW candFuzzyW
     (by decide)⟩

/-! ## C6: ordering, stability and one candidate per entry -/

lemma sorted_insertByScore (c : Candidate) (l : List Candidate)
    (h : List.Sorted (fun a b : Candidate => b.match_score ≤ a.match_score) l) :
    List.Sorted (fun a b : Candidate => b.match_score ≤ a.match_score)
      (insertByScore c l) := by
  induction l with
  | nil => simp [insertByScore]
  | cons d ds ih =>
      unfold insertByScore
      split
      · rename_i hcd
        rw [List.sorted_cons]
        refine ⟨?_, h⟩
        intro b hb
        rcases List.mem_cons.1 hb with hb | hb
        · rw [hb]
          exact hcd
        · exact le_trans ((List.sorted_cons.1 h).1 b hb) hcd
      · rename_i hcd
        rw [List.sorted_cons] at h ⊢
        obtain ⟨hd, hds⟩ := h
        refine ⟨?_, ih hds⟩
        intro b hb
        rcases List.mem_cons.1 ((insertByScore_perm c ds).mem_iff.1 hb)
          with hb | hb
        · rw [hb]
          exact le_of_lt (not_le.1 hcd)
        · exact hd b hb

lemma sorted_sortByScoreDesc (l : List Candidate) :
    List.Sorted (fun a b : Candidate => b.match_score ≤ a.match_score)
      (sortByScoreDesc l) := by
  induction l with
  | nil => simp [sortByScoreDesc]
  | cons c cs ih => exact sorted_insertByScore c _ ih

/-- Stable insertion: the elements of any fixed score keep their order —
the inserted candidate lands before the equal-scored ones already
present. -/
lemma filter_insertByScore (c : Candidate) (l : List Candidate) (s : ℚ) :
    (insertByScore c l).filter (fun x => decide (x.match_score = s))
      = if c.match_score = s then
          c :: l.filter (fun x => decide (x.match_score = s))
        else l.filter (fun x => decide (x.match_score = s)) := by
  induction l with
  | nil =>
      show [c].filter _ = _
      by_cases hc : c.match_score = s <;> simp [hc]
  | cons d ds ih =>
      unfold insertByScore
      split
      · rename_i hcd
        by_cases hc : c.match_score = s <;> simp [List.filter_cons, hc]
      · rename_i hcd
        simp only [List.filter_cons, ih]
        by_cases hc : c.match_score = s
        · by_cases hd : d.match_score = s
          · exact absurd (le_of_eq (hd.trans hc.symm)) hcd
          · simp [hc, hd]
        · by_cases hd : d.match_score = s <;> simp [hc, hd]

/-- Stability of the sort: filtering the sorted list at any score yields
the same sublist, in the same order, as filtering the unsorted one. -/
lemma filter_sortByScoreDesc (l : List Candidate) (s : ℚ) :
    (sortByScoreDesc l).filter (fun x => decide (x.match_score = s))
      = l.filter (fun x => decide (x.match_score = s)) := by
  induction l with
  | nil => rfl
  | cons c cs ih =>
      show (insertByScore c (sortByScoreDesc cs)).filter _ = _
      rw [filter_insertByScore]
      by_cases hc : c.match_score = s <;> simp [List.filter_cons, hc, ih]

/-- A candidate copies its entry's uid (with the `"Unknown"` default). -/
lemma entryCandidate_uid (tsr rto : String → String → ℚ) (fuzzy : Bool)
    (th : ℤ) (ql : String) (e : SdnEntry) (c : Candidate)
    (h : entryCandidate tsr rto fuzzy th ql e = some c) :
    c.uid = e.uid.getD "Unknown" := by
  cases fuzzy with
  | false =>
      obtain ⟨_, hc⟩ := (entryCandidate_false_some tsr rto th ql e c).1 h
      rw [hc]
      rfl
  | true =>
      obtain ⟨_, hc⟩ := (entryCandidate_true_some tsr rto th ql e c).1 h
      rw [hc]
      rfl

/-- One candidate per entry: counting by uid, the matches never exceed the
entries carrying that uid. -/
lemma searchMatches_uid_count (tsr rto : String → String → ℚ) (fuzzy : Bool)
    (th : ℤ) (ql : String) (es : List SdnEntry) (u : String) :
    ((searchMatches tsr rto fuzzy th ql es).filter
        (fun c => decide (c.uid = u))).length
      ≤ (es.filter (fun e => decide (e.uid.getD "Unknown" = u))).length := by
  induction es with
  | nil => exact Nat.le_refl _
  | cons e es ih =>
      show ((List.filterMap _ (e :: es)).filter _).length ≤ _
      rw [List.filterMap_cons, List.filter_cons]
      cases hid : entryCandidate tsr rto fuzzy th ql e with
      | none =>
          refine le_trans ih ?_
          split <;> simp [List.length_cons, Nat.le_succ]
      | some c =>
          have hud := entryCandidate_uid tsr rto fuzzy th ql e c hid
          rw [List.filter_cons]
          by_cases hcu : c.uid = u
          · have heu : e.uid.getD "Unknown" = u := by
              rw [← hud]
              exact hcu
            rw [if_pos (by simp [hcu]), if_pos (by simp [heu])]
            simp only [List.length_cons]
            exact Nat.succ_le_succ ih
          · have heu : e.uid.getD "Unknown" ≠ u := by
              rw [← hud]
              exact hcu
            rw [if_neg (by simp [hcu]), if_neg (by simp [heu])]
            exact ih

/-- **C6.** Result ordering and deduplication: the returned candidates are
sorted descending by score; candidates of equal score keep their encounter
order (stable sort); and each entry contributes at most one candidate,
even when both its primary name and an alias qualify (counting by uid,
which the spec takes as unique per entry). -/
theorem result_ordering_stable_one_per_entry
    (tsr rto : String → String → ℚ) (fuzzy : Bool) (th : ℤ) (ql : String)
    (es : List SdnEntry) :
    List.Sorted (fun a b : Candidate => b.match_score ≤ a.match_score)
      (searchSorted tsr rto fuzzy th ql es) ∧
    (∀ s : ℚ, (searchSorted tsr rto fuzzy th ql es).filter
        (fun c => decide (c.match_score = s))
      = (searchMatches tsr rto fuzzy th ql es).filter
        (fun c => decide (c.match_score = s))) ∧
    (∀ u : String, ((searchSorted tsr rto fuzzy th ql es).filter
        (fun c => decide (c.uid = u))).length
      ≤ (es.filter (fun e => decide (e.uid.getD "Unknown" = u))).length) := by
  refine ⟨sorted_sortByScoreDesc _, fun s => filter_sortByScoreDesc _ s,
    fun u => ?_⟩
  unfold searchSorted
  rw [((sortByScoreDesc_perm (searchMatches tsr rto fuzzy th ql es)).filter
    (fun c => decide (c.uid = u))).length_eq]
  exact searchMatches_uid_count tsr rto fuzzy th ql es u

/-- Witness instance for C6 on a two-entry dataset. -/
theorem result_ordering_stable_one_per_entry_witness :
    List.Sorted (fun a b : Candidate => b.match_score ≤ a.match_score)
      (searchSorted tsrW rtoW true 85 (pyLower "putin") [entryW, entryProgW]) ∧
    (∀ s : ℚ, (searchSorted tsrW rtoW true 85 (pyLower "putin")
          [entryW, entryProgW]).filter
        (fun c => decide (c.match_score = s))
      = (searchMatches tsrW rtoW true 85 (pyLower "putin")
          [entryW, entryProgW]).filter
        (fun c => decide (c.match_score = s))) ∧
    (∀ u : String, ((searchSorted tsrW rtoW true 85 (pyLower "putin")
          [entryW, entryProgW]).filter
        (fun c => decide (c.uid = u))).length
      ≤ ([entryW, entryProgW].filter
          (fun e => decide (e.uid.getD "Unknown" = u))).length) :=
  result_ordering_stable_one_per_entry tsrW rtoW true 85 (pyLower "putin")
    [entryW, entryProgW]

end RegGuard
